import Mathlib

/-!
# Poincare tree pool: `TreeByReference` hierarchy operations

A shallow embedding of `poincare/src/tree_by_reference.cpp`.

The pool is the sequence of node records in arena order (a tree is stored
depth-first, a node immediately followed by its children).  An address
(`TreeNode *`) is an index into that sequence, `last()` is its length.  A handle
(`TreeByReference`) is an identifier; every dereference `node()` resolves it again.

The editing operations are those of `tree_by_reference.cpp`.  The pool and node
primitives they call (`move`, `node`, `retain`, `release`, `nextSibling`, ...)
live in files that are not part of the sources at hand; they are modelled from the
specification and are marked as such.  Assertions of the source are preconditions of
the theorems, they are not executed; dereferencing an identifier that is not live
yields `none`.
-/

namespace Poincare

/-- Node record: identifier, reference counter, stored number of children, the
allocation-failure and ghost flags of its kind, and an abstract content. -/
structure TreeNode where
  identifier : Nat
  retainCount : Nat
  numberOfChildren : Nat
  isAllocationFailure : Bool
  isGhost : Bool
  content : Nat
  deriving DecidableEq, Repr

/-- The arena: node records in address order. -/
abbrev TreePool := List TreeNode

namespace TreePool

/-- Modelled from the spec: `TreePool::last()`, the address just past the last
record, used as the detach destination. -/
def last (pool : TreePool) : Nat := pool.length

/-- Modelled from the spec: `TreePool::node(identifier)`, the current address of
the live node bearing the identifier; `none` when the identifier is not live. -/
def node : TreePool → Nat → Option Nat
  | [], _ => none
  | n :: rest, id => if n.identifier = id then some 0 else (node rest id).map (· + 1)

/-- Record of the live node bearing the identifier (`node(identifier)` dereferenced). -/
def record (pool : TreePool) (id : Nat) : Option TreeNode :=
  (node pool id).bind (fun pos => pool[pos]?)

/-- Modelled from the spec: the walk behind `nextSibling`/`deepSize`: the number of
records taken by `pending` consecutive sub-trees at the front of the sequence,
every visited record adding its own children to the sub-trees still to visit. -/
def extent : List TreeNode → Nat → Nat
  | [], _ => 0
  | _ :: _, 0 => 0
  | n :: rest, pending + 1 => 1 + extent rest (pending + n.numberOfChildren)

/-- Modelled from the spec: `TreeNode::deepSize(realNumberOfChildren)`, the extent
of the sub-tree rooted at the address when the root has that many children. -/
def deepSize (pool : TreePool) (pos realNumberOfChildren : Nat) : Nat :=
  1 + extent (pool.drop (pos + 1)) realNumberOfChildren

/-- Modelled from the spec: `TreeNode::nextSibling()`, the address just after the
sub-tree rooted at the address. -/
def nextSibling (pool : TreePool) (pos : Nat) : Option Nat :=
  (pool[pos]?).map (fun n => pos + deepSize pool pos n.numberOfChildren)

/-- Modelled from the spec: `TreeNode::childAtIndex(i)`: start at `next()` and walk
`i` siblings forward. -/
def childAtIndex (pool : TreePool) (pos : Nat) : Nat → Option Nat
  | 0 => some (pos + 1)
  | i + 1 => (childAtIndex pool pos i).bind (nextSibling pool)

/-- Modelled from the spec: the block relocation behind `move` and `moveChildren`:
the `size` records starting at `source` are taken out and put back so that they
come immediately before the record that was at `destination`; the records in
between shift.  Nothing moves when the destination is the source or lies inside the
block. -/
def moveNodes (pool : TreePool) (destination source size : Nat) : TreePool :=
  if destination ≤ source then
    pool.take destination ++ (pool.drop source).take size ++
      (pool.drop destination).take (source - destination) ++ pool.drop (source + size)
  else if destination < source + size then pool
  else
    pool.take source ++ (pool.drop (source + size)).take (destination - (source + size)) ++
      (pool.drop source).take size ++ pool.drop destination

/-- Modelled from the spec: `TreePool::move(destination, source, realNumberOfSourceChildren)`. -/
def move (pool : TreePool) (destination source realNumberOfSourceChildren : Nat) : TreePool :=
  moveNodes pool destination source (deepSize pool source realNumberOfSourceChildren)

/-- Modelled from the spec: `TreePool::moveChildren(destination, sourceParent)`: the
block of all children of `sourceParent` is relocated. -/
def moveChildren (pool : TreePool) (destination sourceParent : Nat) : Option TreePool :=
  (pool[sourceParent]?).map (fun n =>
    moveNodes pool destination (sourceParent + 1)
      (extent (pool.drop (sourceParent + 1)) n.numberOfChildren))

/-- Modelled from the spec: `TreePool::discardTreeNode(node)`: the record leaves the
arena, the records after it shift left. -/
def discardTreeNode (pool : TreePool) (pos : Nat) : TreePool := pool.eraseIdx pos

/-- Rewrite the record of the live node bearing the identifier. -/
def update (pool : TreePool) (id : Nat) (f : TreeNode → TreeNode) : Option TreePool :=
  (node pool id).bind (fun pos => (pool[pos]?).map (fun n => pool.set pos (f n)))

/-- Modelled from the spec: `TreeNode::retain()`. -/
def retain (pool : TreePool) (id : Nat) : Option TreePool :=
  update pool id (fun n => { n with retainCount := n.retainCount + 1 })

/-- Modelled from the spec: `TreeNode::setReferenceCounter(c)`. -/
def setReferenceCounter (pool : TreePool) (id c : Nat) : Option TreePool :=
  update pool id (fun n => { n with retainCount := c })

/-- Modelled from the spec: `TreeNode::incrementNumberOfChildren(increment)` of a node
that stores its number of children. -/
def incrementNumberOfChildren (pool : TreePool) (id increment : Nat) : Option TreePool :=
  update pool id (fun n => { n with numberOfChildren := n.numberOfChildren + increment })

/-- Modelled from the spec: `TreeNode::decrementNumberOfChildren()`. -/
def decrementNumberOfChildren (pool : TreePool) (id : Nat) : Option TreePool :=
  update pool id (fun n => { n with numberOfChildren := n.numberOfChildren - 1 })

/-- Modelled from the spec: `TreeNode::eraseNumberOfChildren()`. -/
def eraseNumberOfChildren (pool : TreePool) (id : Nat) : Option TreePool :=
  update pool id (fun n => { n with numberOfChildren := 0 })

/-- Modelled from the spec: `TreeNode::parent()`, derived from the layout: the nearest
preceding record whose sub-tree extent covers the address. -/
def parent (pool : TreePool) (pos : Nat) : Option Nat :=
  (List.range pos).reverse.find? (fun p =>
    match pool[p]? with
    | some n => decide (pos < p + deepSize pool p n.numberOfChildren)
    | none => false)

/-- Modelled from the spec: `TreeNode::indexInParent()`, counting siblings; `-1` when
the node is not found among the children of its parent. -/
def indexInParent (pool : TreePool) (pos : Nat) : Int :=
  match parent pool pos with
  | none => -1
  | some p =>
    match pool[p]? with
    | none => -1
    | some n =>
      match (List.range n.numberOfChildren).find? (fun i => childAtIndex pool p i == some pos) with
      | some i => (i : Int)
      | none => -1

/-- Modelled from the spec: `TreeNode::hasChild(child)`: one of the `numberOfChildren()`
direct children of the node at `pos` is at address `child`. -/
def hasChild (pool : TreePool) (pos child : Nat) : Bool :=
  match pool[pos]? with
  | none => false
  | some n => (List.range n.numberOfChildren).any (fun i => childAtIndex pool pos i == some child)

/-- Modelled from the spec: `TreeNode::lastDescendant()->next()`, the address just
after the sub-tree, which is what `nextSibling` computes. -/
def afterLastDescendant (pool : TreePool) (pos : Nat) : Option Nat := nextSibling pool pos

/-- Modelled from the spec: an identifier no live node bears. -/
def freshIdentifier (pool : TreePool) : Nat := (pool.map (·.identifier)).foldr max 0 + 1

/-- Modelled from the spec: `deepCopy` of the static allocation-failure node followed
by `rename(identifier, true)`: a failure record with no children, bearing the given
identifier, is laid out at the end of the arena. -/
def deepCopyAllocationFailure (pool : TreePool) (id : Nat) : TreePool :=
  let copy : TreeNode :=
    { identifier := freshIdentifier pool, retainCount := 0, numberOfChildren := 0,
      isAllocationFailure := true, isGhost := false, content := 0 }
  pool ++ [{ copy with identifier := id }]

/-- Fresh identifiers, counted up from `base`, and zeroed retain counts for the
records of a copied block. -/
def relabelFrom : Nat → List TreeNode → List TreeNode
  | _, [] => []
  | base, n :: rest =>
    { n with identifier := base, retainCount := 0 } :: relabelFrom (base + 1) rest

/-- Modelled from the spec: `TreePool::deepCopy(node)`: the block of the sub-tree is
copied to the end of the arena, every copied node under a fresh identifier and with a
zeroed retain count; the result is the new arena and the address of the copy.  The
arena is not bounded here: the copy is always allocated. -/
def deepCopy (pool : TreePool) (pos : Nat) : Option (TreePool × Nat) :=
  (pool[pos]?).map (fun n =>
    (pool ++ relabelFrom (freshIdentifier pool)
      ((pool.drop pos).take (deepSize pool pos n.numberOfChildren)), pool.length))

/-- Modelled from the spec: `TreeNode::deepResetReferenceCounter()`: the retain count
of every node of the sub-tree at the address is set to zero. -/
def deepResetReferenceCounter (pool : TreePool) (pos : Nat) : Option TreePool :=
  (pool[pos]?).map (fun n =>
    pool.take pos
      ++ ((pool.drop pos).take (deepSize pool pos n.numberOfChildren)).map
          (fun r => { r with retainCount := 0 })
      ++ pool.drop (pos + deepSize pool pos n.numberOfChildren))

/-- Modelled from the spec: `TreeNode::allocationFailureNodeIdentifier()` of an
allocation-failure node: `clone` hands out "a new handle to the same node", so the
identifier is the one of the node itself. -/
def allocationFailureNodeIdentifier (n : TreeNode) : Nat := n.identifier

/-- Modelled from the spec: construction of a `GhostReference`: a ghost node without
children is allocated at the end of the arena under a fresh identifier and the new
handle, which holds that identifier, retains it.  When the arena is exhausted
(`allocated = false`) nothing is laid out and the handle stands on the static
allocation-failure node, which is not part of the arena: `none`. -/
def ghostReference (pool : TreePool) (allocated : Bool) : TreePool × Option Nat :=
  if allocated then
    (pool ++ [{ identifier := freshIdentifier pool, retainCount := 1, numberOfChildren := 0,
                isAllocationFailure := false, isGhost := true, content := 0 }],
      some (freshIdentifier pool))
  else (pool, none)

end TreePool

namespace TreeByReference

open TreePool

/-- Handle query `numberOfChildren()`: the stored count of the node the handle resolves to. -/
def numberOfChildren (pool : TreePool) (id : Nat) : Option Nat :=
  (record pool id).map (·.numberOfChildren)

/-- Handle query `isAllocationFailure()`. -/
def isAllocationFailure (pool : TreePool) (id : Nat) : Option Bool :=
  (record pool id).map (·.isAllocationFailure)

/-- Handle query `treeChildAtIndex(i)`: the identifier held by the handle on the
child at index `i` (the caller accounts for the retain of that new handle). -/
def treeChildAtIndex (pool : TreePool) (self i : Nat) : Option Nat :=
  (node pool self).bind (fun pos =>
    (childAtIndex pool pos i).bind (fun c => (pool[c]?).map (·.identifier)))

/-- Loop of `removeChildren` (lines 189-193), `rel` being `TreeNode::release`: a handle on the
first child is taken, the child is moved to the end of the arena and released, and
the handle is destroyed at the end of the iteration. -/
def removeChildrenLoop (rel : TreePool → Nat → Nat → Option TreePool) :
    Nat → TreePool → Nat → Option TreePool
  | 0, pool, _ => some pool
  | k + 1, pool, self => do
    let childRef ← treeChildAtIndex pool self 0
    let pool ← retain pool childRef
    let source ← node pool childRef
    let n ← numberOfChildren pool childRef
    let pool := move pool (last pool) source n
    let n ← numberOfChildren pool childRef
    let pool ← rel pool childRef n
    let n ← numberOfChildren pool childRef
    let pool ← rel pool childRef n
    removeChildrenLoop rel k pool self

/-- Body of `removeChildren` (lines 187-195) over a given `release`. -/
def removeChildrenWith (rel : TreePool → Nat → Nat → Option TreePool)
    (pool : TreePool) (self currentNumberOfChildren : Nat) : Option TreePool := do
  let pool ← removeChildrenLoop rel currentNumberOfChildren pool self
  eraseNumberOfChildren pool self

/-- Body of `removeChildrenAndDestroy` (lines 197-200) over a given `release`. -/
def removeChildrenAndDestroyWith (rel : TreePool → Nat → Nat → Option TreePool)
    (pool : TreePool) (self currentNumberOfChildren : Nat) : Option TreePool := do
  let pool ← removeChildrenWith rel pool self currentNumberOfChildren
  let pos ← node pool self
  some (discardTreeNode pool pos)

/-- Modelled from the spec: `TreeNode::release(currentNumberOfChildren)`: nothing at
count zero; otherwise the count drops by one and the node is destroyed (children
removed, node discarded) exactly when it reaches zero.  The nesting of destructions
is bounded by the fuel. -/
def releaseFuel : Nat → TreePool → Nat → Nat → Option TreePool
  | 0, _, _, _ => none
  | fuel + 1, pool, id, currentNumberOfChildren =>
    match record pool id with
    | none => none
    | some r =>
      if r.retainCount = 0 then some pool
      else
        (setReferenceCounter pool id (r.retainCount - 1)).bind (fun pool1 =>
          if r.retainCount - 1 = 0 then
            removeChildrenAndDestroyWith (releaseFuel fuel) pool1 id currentNumberOfChildren
          else some pool1)

/-- `TreeNode::release`, the fuel covering every nesting depth the arena can hold. -/
def release (pool : TreePool) (id currentNumberOfChildren : Nat) : Option TreePool :=
  releaseFuel (pool.length + 1) pool id currentNumberOfChildren

/-- Destructor `~TreeByReference()` of a defined handle (lines 8-13). -/
def destructor (pool : TreePool) (id : Nat) : Option TreePool :=
  (numberOfChildren pool id).bind (fun n => release pool id n)

/-- `removeChildren(currentNumberOfChildren)` (lines 187-195). -/
def removeChildren (pool : TreePool) (self currentNumberOfChildren : Nat) : Option TreePool :=
  removeChildrenWith release pool self currentNumberOfChildren

/-- `removeChildrenAndDestroy(currentNumberOfChildren)` (lines 197-200). -/
def removeChildrenAndDestroy (pool : TreePool) (self currentNumberOfChildren : Nat) :
    Option TreePool :=
  removeChildrenAndDestroyWith release pool self currentNumberOfChildren

/-- The walk of lines 162-165: `index` siblings forward from the first child slot. -/
def newChildPosition (pool : TreePool) (pos : Nat) (index : Int) : Option Nat :=
  childAtIndex pool pos index.toNat

/-- Body of `addChildTreeAtIndex` (lines 149-169) over a given
`replaceWithAllocationFailure`. -/
def addChildTreeAtIndexWith (rwaf : TreePool → Nat → Nat → Option TreePool)
    (pool : TreePool) (self t : Nat) (index : Int) (currentNumberOfChildren : Nat) :
    Option TreePool := do
  let me ← record pool self
  if me.isAllocationFailure then some pool
  else
    let tr ← record pool t
    if tr.isAllocationFailure then rwaf pool self currentNumberOfChildren
    else
      let pos ← node pool self
      let destination ← newChildPosition pool pos index
      let source ← node pool t
      let pool := move pool destination source tr.numberOfChildren
      let pool ← retain pool t
      incrementNumberOfChildren pool self 1

/-- `replaceWithAllocationFailure(currentNumberOfChildren)` (lines 65-107); the fuel
bounds the chain of ancestors the failure climbs through `addChildTreeAtIndex`. -/
def replaceWithAllocationFailureFuel : Nat → TreePool → Nat → Nat → Option TreePool
  | 0, _, _, _ => none
  | fuel + 1, pool, self, currentNumberOfChildren => do
    let me ← record pool self
    if me.isAllocationFailure then some pool
    else
      let pos ← node pool self
      match parent pool pos with
      | some ppos =>
        let pr ← pool[ppos]?
        let p := pr.identifier
        let pool ← retain pool p
        let pos ← node pool self
        let indexInParentNode := indexInParent pool pos
        let me ← record pool self
        let currentRetainCount := me.retainCount
        let pool ← removeChildrenAndDestroy pool self currentNumberOfChildren
        let pool := deepCopyAllocationFailure pool self
        let pool ← setReferenceCounter pool self (currentRetainCount - 1)
        let pool ← retain pool self
        let pn ← numberOfChildren pool p
        let pool ← addChildTreeAtIndexWith (replaceWithAllocationFailureFuel fuel)
          pool p self indexInParentNode (pn - 1)
        let pool ← destructor pool self
        let pool ← decrementNumberOfChildren pool p
        destructor pool p
      | none =>
        let currentRetainCount := me.retainCount
        let pool ← removeChildrenAndDestroy pool self currentNumberOfChildren
        let pool := deepCopyAllocationFailure pool self
        setReferenceCounter pool self currentRetainCount

/-- `replaceWithAllocationFailure`, the fuel covering every chain of ancestors the
arena can hold. -/
def replaceWithAllocationFailure (pool : TreePool) (self currentNumberOfChildren : Nat) :
    Option TreePool :=
  replaceWithAllocationFailureFuel (pool.length + 1) pool self currentNumberOfChildren

/-- `addChildTreeAtIndex(t, index, currentNumberOfChildren)` (lines 149-169). -/
def addChildTreeAtIndex (pool : TreePool) (self t : Nat) (index : Int)
    (currentNumberOfChildren : Nat) : Option TreePool :=
  addChildTreeAtIndexWith replaceWithAllocationFailure pool self t index currentNumberOfChildren

/-- `replaceTreeChild(oldChild, newChild)` (lines 41-63). -/
def replaceTreeChild (pool : TreePool) (self oldChild newChild : Nat) : Option TreePool :=
  if oldChild = newChild then some pool
  else do
    let nr ← record pool newChild
    if nr.isAllocationFailure then
      let n ← numberOfChildren pool self
      replaceWithAllocationFailure pool self n
    else
      let destination ← node pool oldChild
      let source ← node pool newChild
      let pool := move pool destination source nr.numberOfChildren
      let pool ← retain pool newChild
      let source ← node pool oldChild
      let n ← numberOfChildren pool oldChild
      let pool := move pool (last pool) source n
      let n ← numberOfChildren pool oldChild
      release pool oldChild n

/-- `removeChildTree(t, childNumberOfChildren)` (lines 180-185). -/
def removeChildTree (pool : TreePool) (self t childNumberOfChildren : Nat) : Option TreePool := do
  let source ← node pool t
  let pool := move pool (last pool) source childNumberOfChildren
  let pool ← release pool t childNumberOfChildren
  decrementNumberOfChildren pool self

/-- `removeChildTreeAtIndex(i)` (lines 173-178): the local handle `t` and the copy of
it passed by value are retained and destroyed around the call. -/
def removeChildTreeAtIndex (pool : TreePool) (self i : Nat) : Option TreePool := do
  let t ← treeChildAtIndex pool self i
  let pool ← retain pool t
  let n ← numberOfChildren pool t
  let pool ← retain pool t
  let pool ← removeChildTree pool self t n
  let pool ← destructor pool t
  destructor pool t

/-- `mergeTreeChildrenAtIndex(t, i)` (lines 114-129). -/
def mergeTreeChildrenAtIndex (pool : TreePool) (self t i : Nat) : Option TreePool := do
  let numberOfNewChildren ← numberOfChildren pool t
  let n ← numberOfChildren pool self
  let pos ← node pool self
  let tpos ← node pool t
  let destination ← if i < n then childAtIndex pool pos i else afterLastDescendant pool pos
  let pool ← moveChildren pool destination tpos
  let pool ← eraseNumberOfChildren pool t
  let pos ← node pool self
  let tpos ← node pool t
  let pool ←
    if hasChild pool pos tpos then do
      let pool ← retain pool t
      let pool ← removeChildTree pool self t 0
      destructor pool t
    else some pool
  incrementNumberOfChildren pool self numberOfNewChildren

/-- Line 142 of `swapChildren`: the second child is moved to just after the first. -/
def swapMoveSecond (pool : TreePool) (firstChild secondChild : Nat) : Option TreePool := do
  let fpos ← node pool firstChild
  let destination ← nextSibling pool fpos
  let spos ← node pool secondChild
  let sn ← numberOfChildren pool secondChild
  some (move pool destination spos sn)

/-- Line 143 of `swapChildren`: the first child is moved to just after the child now at
the second index; the temporary handle on that child is retained when built and
destroyed at the end of the statement. -/
def swapMoveFirst (pool : TreePool) (self firstChild secondChildIndex : Nat) :
    Option TreePool := do
  let tmp ← treeChildAtIndex pool self secondChildIndex
  let pool ← retain pool tmp
  let tpos ← node pool tmp
  let destination ← nextSibling pool tpos
  let fpos ← node pool firstChild
  let fn ← numberOfChildren pool firstChild
  destructor (move pool destination fpos fn) tmp

/-- Lines 140-144 of `swapChildren`, the two indices ordered: the handles `firstChild`
and `secondChild` are retained when built and destroyed when they go out of scope. -/
def swapOrderedChildren (pool : TreePool) (self firstChildIndex secondChildIndex : Nat) :
    Option TreePool := do
  let firstChild ← treeChildAtIndex pool self firstChildIndex
  let pool ← retain pool firstChild
  let secondChild ← treeChildAtIndex pool self secondChildIndex
  let pool ← retain pool secondChild
  let pool ← swapMoveSecond pool firstChild secondChild
  let pool ← swapMoveFirst pool self firstChild secondChildIndex
  let pool ← destructor pool secondChild
  destructor pool firstChild

/-- `swapChildren(i, j)` (lines 131-144). -/
def swapChildren (pool : TreePool) (self i j : Nat) : Option TreePool :=
  if i = j then some pool
  else
    swapOrderedChildren pool self (if i < j then i else j) (if i > j then i else j)

/-- `replaceWith(t)` (lines 33-39): the handle `p` on the parent and the copies of
`*this` and `t` passed by value are retained when built and destroyed afterwards. -/
def replaceWith (pool : TreePool) (self t : Nat) : Option TreePool := do
  let pos ← node pool self
  match parent pool pos with
  | none => some pool
  | some ppos =>
    let pr ← pool[ppos]?
    let pool ← retain pool pr.identifier
    let pool ← retain pool self
    let pool ← retain pool t
    let pool ← replaceTreeChild pool pr.identifier self t
    let pool ← destructor pool t
    let pool ← destructor pool self
    destructor pool pr.identifier

/-- `clone()` (lines 17-29); a handle is its identifier, `none` being the undefined
handle.  The result is the arena together with the returned handle, which retains the
node it is built on. -/
def clone (pool : TreePool) (self : Option Nat) : Option (TreePool × Option Nat) :=
  match self with
  | none => some (pool, none)
  | some id => do
    let pos ← node pool id
    let myNode ← pool[pos]?
    if myNode.isAllocationFailure then
      let allocationFailureNodeId := allocationFailureNodeIdentifier myNode
      let pool ← retain pool allocationFailureNodeId
      some (pool, some allocationFailureNodeId)
    else
      let (pool, nodeCopy) ← deepCopy pool pos
      let pool ← deepResetReferenceCounter pool nodeCopy
      let copy ← pool[nodeCopy]?
      let pool ← retain pool copy.identifier
      some (pool, some copy.identifier)

/-- Outcome of `setTo`: the arena, the identifier the handle holds afterwards, and the
identifiers handed to `TreePool::node` through the `node()` of a handle, in call order
(`none` is `NoNodeIdentifier`). -/
structure SetToOutcome where
  pool : TreePool
  identifier : Option Nat
  resolved : List (Option Nat)

/-- `setTo(tr)` (lines 204-220) on the handle holding `self`.  Line 210 resolves the
current identifier before line 211 asks whether the handle is defined; the address it
yields is used at line 218 only. -/
def setTo (pool : TreePool) (self tr : Option Nat) : Option SetToOutcome :=
  if self = tr then some { pool := pool, identifier := self, resolved := [] }
  else
    let currentNode := self.bind (node pool)
    let releaseNode := self.isSome
    let retained : Option TreePool :=
      match tr with
      | some id => retain pool id
      | none => some pool
    retained.bind (fun pool1 =>
      if releaseNode then
        (currentNode.bind (fun pos => pool1[pos]?)).bind (fun current =>
          (release pool1 current.identifier current.numberOfChildren).map (fun pool2 =>
            { pool := pool2, identifier := tr, resolved := [self] }))
      else some { pool := pool1, identifier := tr, resolved := [self] })

/-- Destructor `~TreeByReference()` (lines 8-13) of a handle that may be undefined. -/
def destroy (pool : TreePool) (self : Option Nat) : Option TreePool :=
  match self with
  | none => some pool
  | some id => destructor pool id

/-- Loop of `buildGhostChildren` (lines 224-232); `allocations i` tells whether the
ghost of iteration `i` is allocated.  The handle `ghost` is destroyed when its scope
ends, at the end of the iteration; at the `return` of line 229 it stands on the static
allocation-failure node and its destruction leaves the arena as it is. -/
def buildGhostChildrenLoop (allocations : Nat → Bool) :
    Nat → Nat → TreePool → Nat → Option TreePool
  | 0, _, _, _ => none
  | fuel + 1, i, pool, self =>
    (numberOfChildren pool self).bind (fun n =>
      if i < n then
        match ghostReference pool (allocations i) with
        | (pool, none) =>
          (numberOfChildren pool self).bind (fun n => replaceWithAllocationFailure pool self n)
        | (pool, some ghost) =>
          (node pool self).bind (fun pos =>
            (node pool ghost).bind (fun source =>
              (destructor (move pool (pos + 1) source 0) ghost).bind (fun pool =>
                buildGhostChildrenLoop allocations fuel (i + 1) pool self)))
      else some pool)

/-- `buildGhostChildren()` (lines 222-233); the declared number of children bounds the
iterations. -/
def buildGhostChildren (allocations : Nat → Bool) (pool : TreePool) (self : Nat) :
    Option TreePool :=
  (numberOfChildren pool self).bind (fun n =>
    buildGhostChildrenLoop allocations (n + 1) 0 pool self)

end TreeByReference

/-! ## Well-formed layouts

A `Subtree` is a node together with its children; `flatten` is the depth-first layout
the arena holds, the stored number of children of every laid-out record being the
number of children it really has. -/

/-- A node with the list of its children sub-trees. -/
inductive Subtree where
  | node (root : TreeNode) (children : List Subtree)

namespace Subtree

/-- Children of the root. -/
def children : Subtree → List Subtree
  | node _ cs => cs

/-- Record of the root as laid out: its stored count is its number of children. -/
def header : Subtree → TreeNode
  | node r cs => { r with numberOfChildren := cs.length }

/-- Identifier of the root. -/
def identifier (t : Subtree) : Nat := t.header.identifier

/-- Retain count of the root. -/
def retainCount (t : Subtree) : Nat := t.header.retainCount

/-- The same sub-tree, the retain count of its root set to `c`. -/
def withRetainCount (c : Nat) : Subtree → Subtree
  | node r cs => node { r with retainCount := c } cs

/-- The same root over other children. -/
def withChildren (cs : List Subtree) : Subtree → Subtree
  | node r _ => node r cs

mutual
/-- Depth-first layout of a sub-tree. -/
def flatten : Subtree → List TreeNode
  | node r cs => { r with numberOfChildren := cs.length } :: flattenForest cs
/-- Layout of consecutive sub-trees. -/
def flattenForest : List Subtree → List TreeNode
  | [] => []
  | t :: ts => flatten t ++ flattenForest ts
end

mutual
/-- Nesting depth of a sub-tree (a leaf has depth one). -/
def depth : Subtree → Nat
  | node _ cs => depthForest cs + 1
/-- Largest depth among consecutive sub-trees. -/
def depthForest : List Subtree → Nat
  | [] => 0
  | t :: ts => max (depth t) (depthForest ts)
end

mutual
/-- Every node of the sub-tree has a retain count of at least one. -/
def Retained : Subtree → Prop
  | node r cs => 1 ≤ r.retainCount ∧ RetainedForest cs
/-- Every node of the sub-trees has a retain count of at least one. -/
def RetainedForest : List Subtree → Prop
  | [] => True
  | t :: ts => Retained t ∧ RetainedForest ts
end

mutual
/-- What one release leaves of a sub-tree whose nodes are all retained: the sub-tree
with one retain less when its root is held more than once; otherwise the root goes
and each child is released in turn. -/
def released : Subtree → List Subtree
  | node r cs =>
    if r.retainCount ≤ 1 then releasedForest cs
    else [node { r with retainCount := r.retainCount - 1 } cs]
/-- What is left of consecutive sub-trees once each has been released. -/
def releasedForest : List Subtree → List Subtree
  | [] => []
  | t :: ts => released t ++ releasedForest ts
end

mutual
/-- The copy `deepCopy` makes of a sub-tree: same shape and contents, identifiers
counted up from `base` in depth-first order, retain counts zeroed. -/
def relabel : Nat → Subtree → Subtree
  | base, node r cs =>
    node { r with identifier := base, retainCount := 0 } (relabelForest (base + 1) cs)
/-- The copies of consecutive sub-trees. -/
def relabelForest : Nat → List Subtree → List Subtree
  | _, [] => []
  | base, t :: ts => relabel base t :: relabelForest (base + (flatten t).length) ts
end

end Subtree

/-- What of a record is neither its identifier nor its retain count: number of
children, kind flags and content. -/
def TreeNode.shape (n : TreeNode) : Nat × Bool × Bool × Nat :=
  (n.numberOfChildren, n.isAllocationFailure, n.isGhost, n.content)

/-- Identifiers of the records of a layout, in address order. -/
def identifiers (pool : TreePool) : List Nat := pool.map (·.identifier)

/-- What `TreeNode::release` does to a retained sub-tree lying at the end of the arena,
for sub-trees of depth at most `d`. -/
def Subtree.ReleasesAtEnd (rel : TreePool → Nat → Nat → Option TreePool) (d : Nat) : Prop :=
  ∀ (X : TreePool) (t : Subtree), t.depth ≤ d → t.Retained →
    (identifiers t.flatten).Nodup → (∀ x ∈ identifiers t.flatten, x ∉ identifiers X) →
    rel (X ++ t.flatten) t.identifier t.children.length
      = some (X ++ Subtree.flattenForest (Subtree.released t))

end Poincare

namespace Poincare

open TreePool TreeByReference

/-! ## Lookup and update in a decomposed layout -/

@[simp] theorem identifiers_nil : identifiers [] = [] := rfl

@[simp] theorem identifiers_cons (x : TreeNode) (l : TreePool) :
    identifiers (x :: l) = x.identifier :: identifiers l := rfl

@[simp] theorem identifiers_append (a b : TreePool) :
    identifiers (a ++ b) = identifiers a ++ identifiers b := by
  simp [identifiers]

theorem node_append_cons (A B : TreePool) (x : TreeNode)
    (h : x.identifier ∉ identifiers A) :
    node (A ++ x :: B) x.identifier = some A.length := by
  induction A with
  | nil => simp [node]
  | cons a A ih =>
    simp only [identifiers_cons, List.mem_cons, not_or] at h
    have hne : a.identifier ≠ x.identifier := fun e => h.1 e.symm
    simp [node, hne, ih h.2]

theorem node_eq_none (A : TreePool) (id : Nat) (h : id ∉ identifiers A) :
    node A id = none := by
  induction A with
  | nil => simp [node]
  | cons a A ih =>
    simp only [identifiers_cons, List.mem_cons, not_or] at h
    have hne : a.identifier ≠ id := fun e => h.1 e.symm
    simp [node, hne, ih h.2]

theorem getElem?_append_cons (A B : TreePool) (x : TreeNode) :
    (A ++ x :: B)[A.length]? = some x := by
  rw [List.getElem?_append_right (le_refl _)]
  simp

theorem record_append_cons (A B : TreePool) (x : TreeNode)
    (h : x.identifier ∉ identifiers A) :
    record (A ++ x :: B) x.identifier = some x := by
  simp only [record, node_append_cons A B x h, Option.some_bind, getElem?_append_cons]

theorem update_append_cons (A B : TreePool) (x : TreeNode) (f : TreeNode → TreeNode)
    (h : x.identifier ∉ identifiers A) :
    update (A ++ x :: B) x.identifier f = some (A ++ f x :: B) := by
  simp only [update, node_append_cons A B x h, Option.some_bind, getElem?_append_cons,
    Option.map_some']
  simp

theorem numberOfChildren_append_cons (A B : TreePool) (x : TreeNode)
    (h : x.identifier ∉ identifiers A) :
    numberOfChildren (A ++ x :: B) x.identifier = some x.numberOfChildren := by
  simp [numberOfChildren, record_append_cons A B x h]

/-! ## Extents of well-formed layouts -/

@[simp] theorem extent_zero (l : List TreeNode) : extent l 0 = 0 := by
  cases l <;> rfl

namespace Subtree

@[simp] theorem flattenForest_nil : flattenForest [] = [] := rfl

@[simp] theorem flattenForest_cons (t : Subtree) (ts : List Subtree) :
    flattenForest (t :: ts) = flatten t ++ flattenForest ts := rfl

theorem flatten_eq (t : Subtree) : flatten t = t.header :: flattenForest t.children := by
  cases t; rfl

@[simp] theorem flattenForest_append (a b : List Subtree) :
    flattenForest (a ++ b) = flattenForest a ++ flattenForest b := by
  induction a with
  | nil => rfl
  | cons t ts ih => simp [ih]

@[simp] theorem header_numberOfChildren (t : Subtree) :
    t.header.numberOfChildren = t.children.length := by
  cases t; rfl

mutual
theorem extent_flatten (t : Subtree) (rest : List TreeNode) (r : Nat) :
    extent (flatten t ++ rest) (r + 1) = (flatten t).length + extent rest r := by
  match t with
  | node root cs =>
    have h := extent_flattenForest cs rest r
    simp only [flatten, List.cons_append, extent, List.length_cons, List.append_eq]
    rw [Nat.add_comm r, h]
    omega
theorem extent_flattenForest (ts : List Subtree) (rest : List TreeNode) (r : Nat) :
    extent (flattenForest ts ++ rest) (ts.length + r) =
      (flattenForest ts).length + extent rest r := by
  match ts with
  | [] => simp
  | t :: ts =>
    have h1 := extent_flatten t (flattenForest ts ++ rest) (ts.length + r)
    have h2 := extent_flattenForest ts rest r
    simp only [flattenForest_cons, List.append_assoc, List.length_cons, List.length_append]
    have e : ts.length + 1 + r = (ts.length + r) + 1 := by omega
    rw [e, h1, h2]
    omega
end

theorem extent_children (ts : List Subtree) (rest : List TreeNode) :
    extent (flattenForest ts ++ rest) ts.length = (flattenForest ts).length := by
  have h := extent_flattenForest ts rest 0
  simpa using h

theorem deepSize_flatten (A B : TreePool) (t : Subtree) :
    deepSize (A ++ flatten t ++ B) A.length t.children.length = (flatten t).length := by
  rw [flatten_eq]
  have : (A ++ t.header :: flattenForest t.children ++ B).drop (A.length + 1)
      = flattenForest t.children ++ B := by
    have e : A ++ t.header :: flattenForest t.children ++ B
        = (A ++ [t.header]) ++ (flattenForest t.children ++ B) := by simp
    rw [e, List.drop_left' (by simp)]
  simp only [deepSize, this, extent_children, List.length_cons]
  omega

end Subtree

end Poincare

namespace Poincare

open TreePool TreeByReference

/-! ## Block relocation in a decomposed layout -/

theorem moveNodes_forward (A blk B1 B2 : TreePool) (hb : blk ≠ []) :
    moveNodes (A ++ blk ++ B1 ++ B2) (A.length + blk.length + B1.length) A.length blk.length
      = A ++ B1 ++ blk ++ B2 := by
  have hpos : 0 < blk.length := List.length_pos.mpr hb
  have h1 : ¬ (A.length + blk.length + B1.length ≤ A.length) := by omega
  have h2 : ¬ (A.length + blk.length + B1.length < A.length + blk.length) := by omega
  simp only [moveNodes, h1, h2, if_false]
  have e1 : (A ++ blk ++ B1 ++ B2).take A.length = A := by
    rw [List.append_assoc, List.append_assoc, List.take_left' rfl]
  have e2 : (A ++ blk ++ B1 ++ B2).drop (A.length + blk.length) = B1 ++ B2 := by
    rw [List.append_assoc, List.drop_left' (by simp)]
  have e3 : (A ++ blk ++ B1 ++ B2).drop A.length = blk ++ (B1 ++ B2) := by
    rw [List.append_assoc, List.append_assoc, List.drop_left' rfl]
  have e4 : (A ++ blk ++ B1 ++ B2).drop (A.length + blk.length + B1.length) = B2 := by
    rw [List.drop_left' (by simp; omega)]
  have e5 : A.length + blk.length + B1.length - (A.length + blk.length) = B1.length := by omega
  rw [e1, e2, e3, e4, e5, List.take_left' rfl, List.take_left' rfl]

theorem moveNodes_backward (A1 A2 blk B : TreePool) :
    moveNodes (A1 ++ A2 ++ blk ++ B) A1.length (A1.length + A2.length) blk.length
      = A1 ++ blk ++ A2 ++ B := by
  have h1 : A1.length ≤ A1.length + A2.length := by omega
  simp only [moveNodes, h1, if_true]
  have e1 : (A1 ++ A2 ++ blk ++ B).take A1.length = A1 := by
    rw [List.append_assoc, List.append_assoc, List.take_left' rfl]
  have e2 : (A1 ++ A2 ++ blk ++ B).drop (A1.length + A2.length) = blk ++ B := by
    rw [List.append_assoc, List.drop_left' (by simp)]
  have e3 : (A1 ++ A2 ++ blk ++ B).drop A1.length = A2 ++ (blk ++ B) := by
    rw [List.append_assoc, List.append_assoc, List.drop_left' rfl]
  have e4 : (A1 ++ A2 ++ blk ++ B).drop (A1.length + A2.length + blk.length) = B := by
    rw [List.drop_left' (by simp; omega)]
  have e5 : A1.length + A2.length - A1.length = A2.length := by omega
  rw [e1, e2, e3, e4, e5, List.take_left' rfl, List.take_left' rfl]

namespace Subtree

theorem flatten_ne_nil (t : Subtree) : flatten t ≠ [] := by
  rw [flatten_eq]; exact List.cons_ne_nil _ _

/-- Moving a whole sub-tree forward: it lands just before the record that was at the
destination. -/
theorem move_forward (A B1 B2 : TreePool) (t : Subtree) :
    move (A ++ flatten t ++ B1 ++ B2) (A.length + (flatten t).length + B1.length) A.length
      t.children.length = A ++ B1 ++ flatten t ++ B2 := by
  have h := deepSize_flatten A (B1 ++ B2) t
  simp only [← List.append_assoc] at h
  rw [move, h, moveNodes_forward A (flatten t) B1 B2 (flatten_ne_nil t)]

/-- Moving a whole sub-tree to the end of the arena. -/
theorem move_last (A B : TreePool) (t : Subtree) :
    move (A ++ flatten t ++ B) (last (A ++ flatten t ++ B)) A.length t.children.length
      = A ++ B ++ flatten t := by
  have h := move_forward A B [] t
  simp only [List.append_nil] at h
  have e : last (A ++ flatten t ++ B) = A.length + (flatten t).length + B.length := by
    simp [last]; omega
  rw [e, h]

/-- Moving a whole sub-tree backward. -/
theorem move_backward (A1 A2 B : TreePool) (t : Subtree) :
    move (A1 ++ A2 ++ flatten t ++ B) A1.length (A1.length + A2.length) t.children.length
      = A1 ++ flatten t ++ A2 ++ B := by
  have h := deepSize_flatten (A1 ++ A2) B t
  simp only [List.length_append] at h
  rw [move, h, moveNodes_backward A1 A2 (flatten t) B]

end Subtree

end Poincare

namespace Poincare

open TreePool TreeByReference

namespace Subtree

/-! ## Lookups of a sub-tree root in a decomposed layout -/

@[simp] theorem withRetainCount_children (c : Nat) (t : Subtree) :
    (t.withRetainCount c).children = t.children := by
  cases t; rfl

@[simp] theorem withRetainCount_identifier (c : Nat) (t : Subtree) :
    (t.withRetainCount c).identifier = t.identifier := by
  cases t; rfl

@[simp] theorem withRetainCount_retainCount (c : Nat) (t : Subtree) :
    (t.withRetainCount c).retainCount = c := by
  cases t; rfl

theorem withRetainCount_header (c : Nat) (t : Subtree) :
    (t.withRetainCount c).header = { t.header with retainCount := c } := by
  cases t; rfl

theorem flatten_withRetainCount (c : Nat) (t : Subtree) :
    flatten (t.withRetainCount c)
      = { t.header with retainCount := c } :: flattenForest t.children := by
  cases t; rfl

@[simp] theorem identifiers_flatten_withRetainCount (c : Nat) (t : Subtree) :
    identifiers (flatten (t.withRetainCount c)) = identifiers (flatten t) := by
  cases t; rfl

@[simp] theorem length_flatten_withRetainCount (c : Nat) (t : Subtree) :
    (flatten (t.withRetainCount c)).length = (flatten t).length := by
  cases t; simp [withRetainCount, flatten]

theorem identifiers_flatten (t : Subtree) :
    identifiers (flatten t) = t.identifier :: identifiers (flattenForest t.children) := by
  cases t; rfl

theorem node_flatten (A B : TreePool) (t : Subtree) (h : t.identifier ∉ identifiers A) :
    TreePool.node (A ++ flatten t ++ B) t.identifier = some A.length := by
  have := node_append_cons A (flattenForest t.children ++ B) t.header h
  simpa [flatten_eq] using this

theorem record_flatten (A B : TreePool) (t : Subtree) (h : t.identifier ∉ identifiers A) :
    record (A ++ flatten t ++ B) t.identifier = some t.header := by
  have := record_append_cons A (flattenForest t.children ++ B) t.header h
  simpa [flatten_eq] using this

theorem numberOfChildren_flatten (A B : TreePool) (t : Subtree)
    (h : t.identifier ∉ identifiers A) :
    numberOfChildren (A ++ flatten t ++ B) t.identifier = some t.children.length := by
  rw [numberOfChildren, record_flatten A B t h]
  simp

theorem update_flatten (A B : TreePool) (t : Subtree) (f : TreeNode → TreeNode)
    (h : t.identifier ∉ identifiers A) :
    update (A ++ flatten t ++ B) t.identifier f
      = some (A ++ f t.header :: flattenForest t.children ++ B) := by
  have := update_append_cons A (flattenForest t.children ++ B) t.header f h
  simpa [flatten_eq] using this

theorem retain_flatten (A B : TreePool) (t : Subtree) (h : t.identifier ∉ identifiers A) :
    retain (A ++ flatten t ++ B) t.identifier
      = some (A ++ flatten (t.withRetainCount (t.retainCount + 1)) ++ B) := by
  rw [retain, update_flatten A B t _ h, flatten_withRetainCount]
  rfl

theorem setReferenceCounter_flatten (A B : TreePool) (t : Subtree) (c : Nat)
    (h : t.identifier ∉ identifiers A) :
    setReferenceCounter (A ++ flatten t ++ B) t.identifier c
      = some (A ++ flatten (t.withRetainCount c) ++ B) := by
  rw [setReferenceCounter, update_flatten A B t _ h, flatten_withRetainCount]

/-- A release of a root held more than once only lowers its retain count. -/
theorem releaseFuel_flatten_of_two_le (fuel : Nat) (A B : TreePool) (t : Subtree) (n : Nat)
    (h : t.identifier ∉ identifiers A) (hrc : 2 ≤ t.retainCount) :
    releaseFuel (fuel + 1) (A ++ flatten t ++ B) t.identifier n
      = some (A ++ flatten (t.withRetainCount (t.retainCount - 1)) ++ B) := by
  have h0 : ¬ t.header.retainCount = 0 := by
    have : t.header.retainCount = t.retainCount := rfl
    omega
  have h1 : ¬ t.header.retainCount - 1 = 0 := by
    have : t.header.retainCount = t.retainCount := rfl
    omega
  simp only [releaseFuel, record_flatten A B t h, h0, h1, if_false,
    setReferenceCounter_flatten A B t _ h, Option.some_bind]
  rfl

theorem release_flatten_of_two_le (A B : TreePool) (t : Subtree) (n : Nat)
    (h : t.identifier ∉ identifiers A) (hrc : 2 ≤ t.retainCount) :
    release (A ++ flatten t ++ B) t.identifier n
      = some (A ++ flatten (t.withRetainCount (t.retainCount - 1)) ++ B) :=
  releaseFuel_flatten_of_two_le _ A B t n h hrc

theorem destructor_flatten_of_two_le (A B : TreePool) (t : Subtree)
    (h : t.identifier ∉ identifiers A) (hrc : 2 ≤ t.retainCount) :
    destructor (A ++ flatten t ++ B) t.identifier
      = some (A ++ flatten (t.withRetainCount (t.retainCount - 1)) ++ B) := by
  rw [destructor, numberOfChildren_flatten A B t h]
  exact release_flatten_of_two_le A B t _ h hrc

end Subtree

end Poincare

namespace Poincare

open TreePool TreeByReference

namespace Subtree

theorem identifier_mem_flatten (t : Subtree) : t.identifier ∈ identifiers (flatten t) := by
  rw [identifiers_flatten]; exact List.mem_cons_self _ _

/-! ## `replaceTreeChild`, replacement allocated -/

/-- The replacement lies after the old child in the arena. -/
theorem replaceTreeChild_after (A M B : TreePool) (P : Nat) (c N : Subtree)
    (hN : N.header.isAllocationFailure = false)
    (h1 : c.identifier ∉ identifiers A)
    (h2 : N.identifier ∉ identifiers A) (h3 : N.identifier ∉ identifiers (flatten c))
    (h4 : N.identifier ∉ identifiers M)
    (h5 : c.identifier ∉ identifiers (flatten N)) (h6 : c.identifier ∉ identifiers M)
    (h7 : c.identifier ∉ identifiers B)
    (hrc : 2 ≤ c.retainCount) :
    replaceTreeChild (A ++ flatten c ++ M ++ flatten N ++ B) P c.identifier N.identifier
      = some (A ++ flatten (N.withRetainCount (N.retainCount + 1)) ++ M ++ B
          ++ flatten (c.withRetainCount (c.retainCount - 1))) := by
  have hne : c.identifier ≠ N.identifier := by
    intro e; exact h3 (e ▸ identifier_mem_flatten c)
  have hNpre : N.identifier ∉ identifiers (A ++ flatten c ++ M) := by
    simp only [identifiers_append, List.mem_append, not_or]; exact ⟨⟨h2, h3⟩, h4⟩
  -- resolutions in the initial arena
  have e1 : record (A ++ flatten c ++ M ++ flatten N ++ B) N.identifier = some N.header :=
    record_flatten (A ++ flatten c ++ M) B N hNpre
  have e2 : TreePool.node (A ++ flatten c ++ M ++ flatten N ++ B) c.identifier = some A.length := by
    have := node_flatten A (M ++ flatten N ++ B) c h1
    simpa only [List.append_assoc] using this
  have e3 : TreePool.node (A ++ flatten c ++ M ++ flatten N ++ B) N.identifier
      = some (A.length + (flatten c ++ M).length) := by
    have := node_flatten (A ++ flatten c ++ M) B N hNpre
    simpa only [List.append_assoc, List.length_append] using this
  have e4 : move (A ++ flatten c ++ M ++ flatten N ++ B) A.length
      (A.length + (flatten c ++ M).length) N.children.length
      = A ++ flatten N ++ (flatten c ++ M) ++ B := by
    have := move_backward A (flatten c ++ M) B N
    simpa only [List.append_assoc] using this
  have e5 : retain (A ++ flatten N ++ (flatten c ++ M) ++ B) N.identifier
      = some (A ++ flatten (N.withRetainCount (N.retainCount + 1)) ++ (flatten c ++ M) ++ B) := by
    have := retain_flatten A ((flatten c ++ M) ++ B) N h2
    simpa only [List.append_assoc] using this
  have hcpre : c.identifier ∉ identifiers (A ++ flatten (N.withRetainCount (N.retainCount + 1))) := by
    simp only [identifiers_append, List.mem_append, not_or, identifiers_flatten_withRetainCount]
    exact ⟨h1, h5⟩
  have e6 : TreePool.node (A ++ flatten (N.withRetainCount (N.retainCount + 1)) ++ (flatten c ++ M) ++ B)
      c.identifier = some (A ++ flatten (N.withRetainCount (N.retainCount + 1))).length := by
    have := node_flatten (A ++ flatten (N.withRetainCount (N.retainCount + 1))) (M ++ B) c hcpre
    simpa only [List.append_assoc] using this
  have e7 : numberOfChildren
      (A ++ flatten (N.withRetainCount (N.retainCount + 1)) ++ (flatten c ++ M) ++ B)
      c.identifier = some c.children.length := by
    have := numberOfChildren_flatten (A ++ flatten (N.withRetainCount (N.retainCount + 1)))
      (M ++ B) c hcpre
    simpa only [List.append_assoc] using this
  have e8 : move (A ++ flatten (N.withRetainCount (N.retainCount + 1)) ++ (flatten c ++ M) ++ B)
      (last (A ++ flatten (N.withRetainCount (N.retainCount + 1)) ++ (flatten c ++ M) ++ B))
      (A ++ flatten (N.withRetainCount (N.retainCount + 1))).length c.children.length
      = A ++ flatten (N.withRetainCount (N.retainCount + 1)) ++ (M ++ B) ++ flatten c := by
    have := move_last (A ++ flatten (N.withRetainCount (N.retainCount + 1))) (M ++ B) c
    simpa only [List.append_assoc] using this
  have hcpre2 : c.identifier ∉ identifiers
      (A ++ flatten (N.withRetainCount (N.retainCount + 1)) ++ (M ++ B)) := by
    simp only [identifiers_append, List.mem_append, not_or, identifiers_flatten_withRetainCount]
    exact ⟨⟨h1, h5⟩, h6, h7⟩
  have e9 : numberOfChildren
      (A ++ flatten (N.withRetainCount (N.retainCount + 1)) ++ (M ++ B) ++ flatten c)
      c.identifier = some c.children.length := by
    have := numberOfChildren_flatten _ [] c hcpre2
    simpa only [List.append_nil] using this
  have e10 : release
      (A ++ flatten (N.withRetainCount (N.retainCount + 1)) ++ (M ++ B) ++ flatten c)
      c.identifier c.children.length
      = some (A ++ flatten (N.withRetainCount (N.retainCount + 1)) ++ (M ++ B)
          ++ flatten (c.withRetainCount (c.retainCount - 1))) := by
    have := release_flatten_of_two_le _ [] c c.children.length hcpre2 hrc
    simpa only [List.append_nil] using this
  simp only [replaceTreeChild, if_neg hne, Option.bind_eq_bind, e1, Option.some_bind, hN,
    Bool.false_eq_true, if_false, e2, e3, header_numberOfChildren, e4, e5, e6, e7, e8, e9, e10]
  simp only [List.append_assoc]

/-- The replacement lies before the old child in the arena. -/
theorem replaceTreeChild_before (A M B : TreePool) (P : Nat) (c N : Subtree)
    (hN : N.header.isAllocationFailure = false)
    (h1 : N.identifier ∉ identifiers A) (h2 : N.identifier ∉ identifiers M)
    (h3 : c.identifier ∉ identifiers A) (h4 : c.identifier ∉ identifiers (flatten N))
    (h5 : c.identifier ∉ identifiers M) (h6 : c.identifier ∉ identifiers B)
    (hrc : 2 ≤ c.retainCount) :
    replaceTreeChild (A ++ flatten N ++ M ++ flatten c ++ B) P c.identifier N.identifier
      = some (A ++ M ++ flatten (N.withRetainCount (N.retainCount + 1)) ++ B
          ++ flatten (c.withRetainCount (c.retainCount - 1))) := by
  have hne : c.identifier ≠ N.identifier := by
    intro e; exact h4 (e ▸ identifier_mem_flatten N)
  have hcpre : c.identifier ∉ identifiers (A ++ flatten N ++ M) := by
    simp only [identifiers_append, List.mem_append, not_or]; exact ⟨⟨h3, h4⟩, h5⟩
  have e1 : record (A ++ flatten N ++ M ++ flatten c ++ B) N.identifier = some N.header := by
    have := record_flatten A (M ++ flatten c ++ B) N h1
    simpa only [List.append_assoc] using this
  have e2 : TreePool.node (A ++ flatten N ++ M ++ flatten c ++ B) c.identifier
      = some (A.length + (flatten N).length + M.length) := by
    have := node_flatten (A ++ flatten N ++ M) B c hcpre
    simpa only [List.append_assoc, List.length_append, Nat.add_assoc] using this
  have e3 : TreePool.node (A ++ flatten N ++ M ++ flatten c ++ B) N.identifier = some A.length := by
    have := node_flatten A (M ++ flatten c ++ B) N h1
    simpa only [List.append_assoc] using this
  have e4 : move (A ++ flatten N ++ M ++ flatten c ++ B)
      (A.length + (flatten N).length + M.length) A.length N.children.length
      = A ++ M ++ flatten N ++ (flatten c ++ B) := by
    have := move_forward A M (flatten c ++ B) N
    simpa only [List.append_assoc] using this
  have hNpre : N.identifier ∉ identifiers (A ++ M) := by
    simp only [identifiers_append, List.mem_append, not_or]; exact ⟨h1, h2⟩
  have e5 : retain (A ++ M ++ flatten N ++ (flatten c ++ B)) N.identifier
      = some (A ++ M ++ flatten (N.withRetainCount (N.retainCount + 1)) ++ (flatten c ++ B)) :=
    retain_flatten (A ++ M) (flatten c ++ B) N hNpre
  have hcpre1 : c.identifier ∉ identifiers
      (A ++ M ++ flatten (N.withRetainCount (N.retainCount + 1))) := by
    simp only [identifiers_append, List.mem_append, not_or, identifiers_flatten_withRetainCount]
    exact ⟨⟨h3, h5⟩, h4⟩
  have e6 : TreePool.node (A ++ M ++ flatten (N.withRetainCount (N.retainCount + 1)) ++ (flatten c ++ B))
      c.identifier = some (A ++ M ++ flatten (N.withRetainCount (N.retainCount + 1))).length := by
    have := node_flatten (A ++ M ++ flatten (N.withRetainCount (N.retainCount + 1))) B c hcpre1
    simpa only [List.append_assoc] using this
  have e7 : numberOfChildren
      (A ++ M ++ flatten (N.withRetainCount (N.retainCount + 1)) ++ (flatten c ++ B))
      c.identifier = some c.children.length := by
    have := numberOfChildren_flatten (A ++ M ++ flatten (N.withRetainCount (N.retainCount + 1)))
      B c hcpre1
    simpa only [List.append_assoc] using this
  have e8 : move (A ++ M ++ flatten (N.withRetainCount (N.retainCount + 1)) ++ (flatten c ++ B))
      (last (A ++ M ++ flatten (N.withRetainCount (N.retainCount + 1)) ++ (flatten c ++ B)))
      (A ++ M ++ flatten (N.withRetainCount (N.retainCount + 1))).length c.children.length
      = A ++ M ++ flatten (N.withRetainCount (N.retainCount + 1)) ++ B ++ flatten c := by
    have := move_last (A ++ M ++ flatten (N.withRetainCount (N.retainCount + 1))) B c
    simpa only [List.append_assoc] using this
  have hcpre2 : c.identifier ∉ identifiers
      (A ++ M ++ flatten (N.withRetainCount (N.retainCount + 1)) ++ B) := by
    simp only [identifiers_append, List.mem_append, not_or, identifiers_flatten_withRetainCount]
    exact ⟨⟨⟨h3, h5⟩, h4⟩, h6⟩
  have e9 : numberOfChildren
      (A ++ M ++ flatten (N.withRetainCount (N.retainCount + 1)) ++ B ++ flatten c)
      c.identifier = some c.children.length := by
    have := numberOfChildren_flatten _ [] c hcpre2
    simpa only [List.append_nil] using this
  have e10 : release
      (A ++ M ++ flatten (N.withRetainCount (N.retainCount + 1)) ++ B ++ flatten c)
      c.identifier c.children.length
      = some (A ++ M ++ flatten (N.withRetainCount (N.retainCount + 1)) ++ B
          ++ flatten (c.withRetainCount (c.retainCount - 1))) := by
    have := release_flatten_of_two_le _ [] c c.children.length hcpre2 hrc
    simpa only [List.append_nil] using this
  simp only [replaceTreeChild, if_neg hne, Option.bind_eq_bind, e1, Option.some_bind, hN,
    Bool.false_eq_true, if_false, e2, e3, header_numberOfChildren, e4, e5, e6, e7, e8, e9, e10]

end Subtree

end Poincare

namespace Poincare

open TreePool TreeByReference

namespace Subtree

/-- In an arena whose identifiers are pairwise distinct, the identifier of a sub-tree
root occurs neither before nor after its record. -/
theorem not_mem_of_nodup (A B : TreePool) (t : Subtree)
    (h : (identifiers (A ++ flatten t ++ B)).Nodup) :
    t.identifier ∉ identifiers A ∧ t.identifier ∉ identifiers (flattenForest t.children)
      ∧ t.identifier ∉ identifiers B := by
  simp only [identifiers_append, identifiers_flatten, List.append_assoc, List.cons_append] at h
  have h2 := (List.nodup_cons.mp (List.nodup_middle.mp h)).1
  simp only [List.mem_append, not_or] at h2
  exact ⟨h2.1, h2.2.1, h2.2.2⟩

theorem flatten_node_split (P : TreeNode) (L R : List Subtree) (c : Subtree) :
    flatten (node P (L ++ c :: R))
      = { P with numberOfChildren := (L ++ c :: R).length } :: flattenForest L
          ++ flatten c ++ flattenForest R := by
  simp [flatten]

end Subtree

open Subtree

/-- C1: `replaceTreeChild`, success case.  In an arena with pairwise distinct
identifiers, let `P` have the children `L ++ c :: R` and let `N` be a sub-tree laid out
outside the sub-tree of `P` (before or after it), not an allocation failure; `c` is held
by `P` and by the handle `oldChild`.  Then `P.replaceTreeChild(c, N)` returns, and in the
resulting arena `P` has the children `L ++ N :: R` (as many as before, `N` with its whole
sub-tree at the index of `c`, the others in their order), the retain count of `N` is one
more, and `c`, with one retain less, lies detached at the end of the arena. -/
theorem replaceTreeChild_replaces_child (A1 A2 B1 B2 pool : TreePool) (P : TreeNode)
    (L R : List Subtree) (c N : Subtree)
    (hpool : pool = A1 ++ flatten N ++ A2 ++ flatten (node P (L ++ c :: R)) ++ B1 ++ B2
      ∨ pool = A1 ++ A2 ++ flatten (node P (L ++ c :: R)) ++ B1 ++ flatten N ++ B2)
    (hids : (identifiers pool).Nodup)
    (hN : N.header.isAllocationFailure = false)
    (hrc : 2 ≤ c.retainCount) :
    replaceTreeChild pool P.identifier c.identifier N.identifier
      = some (A1 ++ A2
          ++ flatten (node P (L ++ N.withRetainCount (N.retainCount + 1) :: R))
          ++ B1 ++ B2 ++ flatten (c.withRetainCount (c.retainCount - 1))) := by
  rcases hpool with rfl | rfl
  · have hshape : A1 ++ flatten N ++ A2 ++ flatten (node P (L ++ c :: R)) ++ B1 ++ B2
        = A1 ++ flatten N
            ++ (A2 ++ { P with numberOfChildren := (L ++ c :: R).length } :: flattenForest L)
            ++ flatten c ++ (flattenForest R ++ B1 ++ B2) := by
      simp [flatten_node_split]
    rw [hshape] at hids ⊢
    have hc := not_mem_of_nodup _ _ c hids
    have hn := not_mem_of_nodup A1 _ N (by simpa only [List.append_assoc] using hids)
    simp only [identifiers_append, identifiers_cons, List.mem_append, List.mem_cons, not_or]
      at hc hn
    rw [replaceTreeChild_before A1 _ _ P.identifier c N hN (by tauto)
      (by simp only [identifiers_append, identifiers_cons, List.mem_append, List.mem_cons, not_or]
          tauto)
      (by tauto) (by tauto)
      (by simp only [identifiers_append, identifiers_cons, List.mem_append, List.mem_cons, not_or]
          tauto)
      (by simp only [identifiers_append, List.mem_append, not_or]
          tauto)
      hrc]
    simp only [flatten_node_split, List.append_assoc, List.cons_append, List.length_append,
      List.length_cons]
  · have hshape : A1 ++ A2 ++ flatten (node P (L ++ c :: R)) ++ B1 ++ flatten N ++ B2
        = (A1 ++ A2 ++ { P with numberOfChildren := (L ++ c :: R).length } :: flattenForest L)
            ++ flatten c ++ (flattenForest R ++ B1) ++ flatten N ++ B2 := by
      simp only [flatten_node_split, List.append_assoc, List.cons_append]
    rw [hshape] at hids ⊢
    have hn := not_mem_of_nodup _ _ N hids
    have hc := not_mem_of_nodup
      (A1 ++ A2 ++ { P with numberOfChildren := (L ++ c :: R).length } :: flattenForest L)
      (flattenForest R ++ B1 ++ flatten N ++ B2) c
      (by simpa only [List.append_assoc, List.cons_append] using hids)
    simp only [identifiers_append, identifiers_cons, List.mem_append, List.mem_cons, not_or]
      at hc hn
    have hcN : c.identifier ∉ identifiers (flatten N) := hc.2.2.1.2
    rw [replaceTreeChild_after _ _ _ P.identifier c N hN
      (by simp only [identifiers_append, identifiers_cons, List.mem_append, List.mem_cons, not_or]
          tauto)
      (by simp only [identifiers_append, identifiers_cons, List.mem_append, List.mem_cons, not_or]
          tauto)
      (by tauto)
      (by simp only [identifiers_append, List.mem_append, not_or]
          tauto)
      (by tauto)
      (by simp only [identifiers_append, List.mem_append, not_or]
          tauto)
      (by tauto)
      hrc]
    simp only [flatten_node_split, List.append_assoc, List.cons_append, List.length_append,
      List.length_cons]

theorem replaceTreeChild_replaces_child_witness :
    replaceTreeChild
      [⟨1, 1, 1, false, false, 0⟩, ⟨2, 2, 0, false, false, 0⟩, ⟨3, 1, 0, false, false, 0⟩] 1 2 3
      = some [⟨1, 1, 1, false, false, 0⟩, ⟨3, 2, 0, false, false, 0⟩, ⟨2, 1, 0, false, false, 0⟩] :=
  replaceTreeChild_replaces_child [] [] [] [] _ ⟨1, 1, 0, false, false, 0⟩ [] []
    (node ⟨2, 2, 0, false, false, 0⟩ []) (node ⟨3, 1, 0, false, false, 0⟩ [])
    (Or.inr rfl) (by decide) rfl (by decide)

end Poincare

namespace Poincare

open TreePool TreeByReference

theorem discardTreeNode_append_cons (A B : TreePool) (x : TreeNode) :
    discardTreeNode (A ++ x :: B) A.length = A ++ B := by
  simp [discardTreeNode, List.eraseIdx_append_of_length_le]

namespace Subtree

/-! ## What a release leaves of a sub-tree -/

theorem depth_eq (t : Subtree) : depth t = depthForest t.children + 1 := by
  cases t; rfl

@[simp] theorem depthForest_nil : depthForest [] = 0 := rfl

@[simp] theorem depthForest_cons (t : Subtree) (ts : List Subtree) :
    depthForest (t :: ts) = max (depth t) (depthForest ts) := rfl

@[simp] theorem depth_withRetainCount (c : Nat) (t : Subtree) :
    depth (t.withRetainCount c) = depth t := by
  cases t; rfl

theorem retained_iff (t : Subtree) :
    Retained t ↔ 1 ≤ t.retainCount ∧ RetainedForest t.children := by
  cases t; rfl

@[simp] theorem retainedForest_nil : RetainedForest [] = True := rfl

@[simp] theorem retainedForest_cons (t : Subtree) (ts : List Subtree) :
    RetainedForest (t :: ts) = (Retained t ∧ RetainedForest ts) := rfl

theorem retained_withRetainCount (c : Nat) (t : Subtree) (hc : 1 ≤ c) (h : Retained t) :
    Retained (t.withRetainCount c) := by
  rw [retained_iff] at h ⊢
  simpa using ⟨hc, h.2⟩

theorem withRetainCount_self (t : Subtree) : t.withRetainCount t.retainCount = t := by
  cases t; rfl

@[simp] theorem withRetainCount_withRetainCount (a b : Nat) (t : Subtree) :
    (t.withRetainCount a).withRetainCount b = t.withRetainCount b := by
  cases t; rfl

@[simp] theorem releasedForest_nil : releasedForest [] = [] := rfl

@[simp] theorem releasedForest_cons (t : Subtree) (ts : List Subtree) :
    releasedForest (t :: ts) = released t ++ releasedForest ts := rfl

theorem released_of_two_le (t : Subtree) (h : 2 ≤ t.retainCount) :
    released t = [t.withRetainCount (t.retainCount - 1)] := by
  cases t with
  | node r cs =>
    have h1 : ¬ r.retainCount ≤ 1 := by
      have : (node r cs).retainCount = r.retainCount := rfl
      omega
    simp only [released, h1, if_false]
    rfl

theorem released_of_le_one (t : Subtree) (h : t.retainCount ≤ 1) :
    released t = releasedForest t.children := by
  cases t with
  | node r cs =>
    have h1 : r.retainCount ≤ 1 := h
    simp only [released, h1, if_true]
    rfl

mutual
theorem identifiers_released_subset (t : Subtree) :
    ∀ x ∈ identifiers (flattenForest (released t)), x ∈ identifiers (flatten t) := by
  match t with
  | node r cs =>
    intro x hx
    by_cases h : r.retainCount ≤ 1
    · rw [released_of_le_one (node r cs) h] at hx
      have := identifiers_releasedForest_subset cs x hx
      rw [identifiers_flatten]
      exact List.mem_cons_of_mem _ this
    · rw [released_of_two_le _ (by have : (node r cs).retainCount = r.retainCount := rfl; omega)]
        at hx
      simpa using hx
theorem identifiers_releasedForest_subset (ts : List Subtree) :
    ∀ x ∈ identifiers (flattenForest (releasedForest ts)), x ∈ identifiers (flattenForest ts) := by
  match ts with
  | [] => intro x hx; simp at hx
  | t :: ts =>
    intro x hx
    simp only [releasedForest_cons, flattenForest_append, identifiers_append, List.mem_append,
      flattenForest_cons] at hx ⊢
    rcases hx with hx | hx
    · exact Or.inl (identifiers_released_subset t x hx)
    · exact Or.inr (identifiers_releasedForest_subset ts x hx)
end

theorem treeChildAtIndex_zero (A B : TreePool) (hdr : TreeNode) (c : Subtree)
    (h : hdr.identifier ∉ identifiers A) :
    treeChildAtIndex (A ++ hdr :: (flatten c ++ B)) hdr.identifier 0 = some c.identifier := by
  have e : (A ++ hdr :: (flatten c ++ B))[A.length + 1]? = some c.header := by
    have := getElem?_append_cons (A ++ [hdr]) (flattenForest c.children ++ B) c.header
    simpa [flatten_eq] using this
  simp only [treeChildAtIndex, node_append_cons A _ hdr h, Option.some_bind, childAtIndex, e,
    Option.map_some']
  rfl

end Subtree

end Poincare

namespace Poincare

open TreePool TreeByReference

namespace Subtree

/-- The loop of `removeChildren` over the children `cs` of the node `hdr`: every child
is moved to the end of the arena and released once. -/
theorem removeChildrenLoop_flatten (rel : TreePool → Nat → Nat → Option TreePool) (d : Nat)
    (hrel : ReleasesAtEnd rel d) :
    ∀ (cs : List Subtree) (A B : TreePool) (hdr : TreeNode), depthForest cs ≤ d →
      RetainedForest cs → (identifiers (flattenForest cs)).Nodup →
      hdr.identifier ∉ identifiers A →
      (∀ x ∈ identifiers (flattenForest cs),
        x ∉ identifiers A ∧ x ≠ hdr.identifier ∧ x ∉ identifiers B) →
      removeChildrenLoop rel cs.length (A ++ hdr :: (flattenForest cs ++ B)) hdr.identifier
        = some (A ++ hdr :: (B ++ flattenForest (releasedForest cs))) := by
  intro cs
  induction cs with
  | nil => intro A B hdr _ _ _ _ _; simp [removeChildrenLoop]
  | cons c cs ih =>
    intro A B hdr hd hret hnd hA hfresh
    simp only [depthForest_cons, max_le_iff] at hd
    simp only [retainedForest_cons] at hret
    simp only [flattenForest_cons, identifiers_append, List.nodup_append] at hnd
    obtain ⟨hndc, hndcs, hdisj⟩ := hnd
    have hcmem : c.identifier ∈ identifiers (flatten c) := identifier_mem_flatten c
    have hfc : ∀ x ∈ identifiers (flatten c),
        x ∉ identifiers A ∧ x ≠ hdr.identifier ∧ x ∉ identifiers B := by
      intro x hx
      exact hfresh x (by simp [hx])
    have hfcs : ∀ x ∈ identifiers (flattenForest cs),
        x ∉ identifiers A ∧ x ≠ hdr.identifier ∧ x ∉ identifiers B := by
      intro x hx
      exact hfresh x (by simp [hx])
    have hc1 : 1 ≤ c.retainCount := ((retained_iff c).mp hret.1).1
    -- the child with the retain of the handle `childRef`
    have hcA : c.identifier ∉ identifiers (A ++ [hdr]) := by
      have := hfc _ hcmem
      simp only [identifiers_append, identifiers_cons, identifiers_nil, List.mem_append,
        List.mem_singleton, not_or]
      exact ⟨this.1, this.2.1⟩
    have e1 : treeChildAtIndex (A ++ hdr :: (flattenForest (c :: cs) ++ B)) hdr.identifier 0
        = some c.identifier := by
      have := treeChildAtIndex_zero A (flattenForest cs ++ B) hdr c hA
      simpa only [flattenForest_cons, List.append_assoc] using this
    have e2 : retain (A ++ hdr :: (flattenForest (c :: cs) ++ B)) c.identifier
        = some ((A ++ [hdr]) ++ flatten (c.withRetainCount (c.retainCount + 1))
            ++ (flattenForest cs ++ B)) := by
      have := retain_flatten (A ++ [hdr]) (flattenForest cs ++ B) c hcA
      simpa only [flattenForest_cons, List.append_assoc, List.singleton_append] using this
    have hcA' : (c.withRetainCount (c.retainCount + 1)).identifier ∉ identifiers (A ++ [hdr]) := by
      simpa using hcA
    have e3 := node_flatten (A ++ [hdr]) (flattenForest cs ++ B)
      (c.withRetainCount (c.retainCount + 1)) hcA'
    have e4 := numberOfChildren_flatten (A ++ [hdr]) (flattenForest cs ++ B)
      (c.withRetainCount (c.retainCount + 1)) hcA'
    have e5 := move_last (A ++ [hdr]) (flattenForest cs ++ B)
      (c.withRetainCount (c.retainCount + 1))
    simp only [withRetainCount_identifier, withRetainCount_children] at e3 e4 e5
    -- the prefix of the child once it lies at the end
    have hcX : ∀ x ∈ identifiers (flatten c),
        x ∉ identifiers (A ++ [hdr] ++ (flattenForest cs ++ B)) := by
      intro x hx
      have h1 := hfc x hx
      have h2 : x ∉ identifiers (flattenForest cs) := fun h => hdisj hx h
      simp only [identifiers_append, identifiers_cons, identifiers_nil, List.mem_append,
        List.mem_singleton, not_or]
      exact ⟨⟨h1.1, h1.2.1⟩, h2, h1.2.2⟩
    have e6 := numberOfChildren_flatten (A ++ [hdr] ++ (flattenForest cs ++ B)) []
      (c.withRetainCount (c.retainCount + 1)) (by simpa using hcX _ hcmem)
    have e7 := hrel (A ++ [hdr] ++ (flattenForest cs ++ B))
      (c.withRetainCount (c.retainCount + 1)) (by simpa using hd.1)
      (retained_withRetainCount _ c (by omega) hret.1) (by simpa using hndc)
      (by simpa using hcX)
    rw [released_of_two_le _ (by simp; omega)] at e7
    simp only [withRetainCount_identifier, withRetainCount_children, withRetainCount_retainCount,
      withRetainCount_withRetainCount, Nat.add_sub_cancel, withRetainCount_self,
      flattenForest_cons, flattenForest_nil, List.append_nil] at e6 e7
    have e8 := numberOfChildren_flatten (A ++ [hdr] ++ (flattenForest cs ++ B)) [] c
      (hcX _ hcmem)
    have e9 := hrel (A ++ [hdr] ++ (flattenForest cs ++ B)) c hd.1 hret.1 hndc hcX
    simp only [List.append_nil] at e8
    -- the remaining children
    have e10 := ih A (B ++ flattenForest (released c)) hdr hd.2 hret.2 hndcs hA (by
      intro x hx
      have h1 := hfcs x hx
      refine ⟨h1.1, h1.2.1, ?_⟩
      simp only [identifiers_append, List.mem_append, not_or]
      refine ⟨h1.2.2, fun h => ?_⟩
      exact hdisj (identifiers_released_subset c x h) hx)
    simp only [List.length_cons, removeChildrenLoop, Option.bind_eq_bind, e1, Option.some_bind,
      e2, e3, e4, e5, e6, e7, e8, e9]
    have eshape : A ++ [hdr] ++ (flattenForest cs ++ B) ++ flattenForest (released c)
        = A ++ hdr :: (flattenForest cs ++ (B ++ flattenForest (released c))) := by
      simp only [List.append_assoc, List.singleton_append, List.cons_append, List.nil_append]
    rw [eshape, e10]
    simp only [releasedForest_cons, flattenForest_append, List.append_assoc]

end Subtree

end Poincare

namespace Poincare

open TreePool TreeByReference

namespace Subtree

theorem depth_pos (t : Subtree) : 1 ≤ depth t := by
  rw [depth_eq]; omega

mutual
theorem depth_le_length (t : Subtree) : depth t ≤ (flatten t).length := by
  match t with
  | node r cs =>
    have := depthForest_le_length cs
    simp only [depth, flatten, List.length_cons]
    omega
theorem depthForest_le_length (ts : List Subtree) :
    depthForest ts ≤ (flattenForest ts).length := by
  match ts with
  | [] => simp
  | t :: ts =>
    have h1 := depth_le_length t
    have h2 := depthForest_le_length ts
    simp only [depthForest_cons, flattenForest_cons, List.length_append, max_le_iff]
    omega
end

/-- The loop of `removeChildren` followed by `eraseNumberOfChildren` and
`discardTreeNode`: destruction of a node whose children are `cs`. -/
theorem removeChildrenAndDestroyWith_flatten (rel : TreePool → Nat → Nat → Option TreePool)
    (d : Nat) (hrel : ReleasesAtEnd rel d) (cs : List Subtree) (A B : TreePool) (hdr : TreeNode)
    (hd : depthForest cs ≤ d) (hret : RetainedForest cs)
    (hnd : (identifiers (flattenForest cs)).Nodup) (hA : hdr.identifier ∉ identifiers A)
    (hfresh : ∀ x ∈ identifiers (flattenForest cs),
      x ∉ identifiers A ∧ x ≠ hdr.identifier ∧ x ∉ identifiers B) :
    removeChildrenAndDestroyWith rel (A ++ hdr :: (flattenForest cs ++ B)) hdr.identifier
        cs.length
      = some (A ++ (B ++ flattenForest (releasedForest cs))) := by
  have e1 := removeChildrenLoop_flatten rel d hrel cs A B hdr hd hret hnd hA hfresh
  have e2 := update_append_cons A (B ++ flattenForest (releasedForest cs)) hdr
    (fun n => { n with numberOfChildren := 0 }) hA
  have e3 := node_append_cons A (B ++ flattenForest (releasedForest cs))
    ({ hdr with numberOfChildren := 0 }) hA
  simp only [removeChildrenAndDestroyWith, removeChildrenWith, Option.bind_eq_bind, e1,
    Option.some_bind, eraseNumberOfChildren, e2, e3, discardTreeNode_append_cons]

/-- `TreeNode::release` on a retained sub-tree at the end of the arena leaves what
`released` describes, whenever the fuel covers the depth of the sub-tree. -/
theorem releaseFuel_releasesAtEnd : ∀ fuel : Nat, ReleasesAtEnd (releaseFuel fuel) fuel := by
  intro fuel
  induction fuel with
  | zero =>
    intro X t hd
    have := depth_pos t
    omega
  | succ fuel ih =>
    intro X t hd hret hnd hfresh
    have htX : t.identifier ∉ identifiers X := hfresh _ (identifier_mem_flatten t)
    have hrc : 1 ≤ t.retainCount := ((retained_iff t).mp hret).1
    have e1 := record_flatten X [] t htX
    have e2 := setReferenceCounter_flatten X [] t (t.retainCount - 1) htX
    simp only [List.append_nil] at e1 e2
    have h0 : ¬ t.header.retainCount = 0 := by
      have : t.header.retainCount = t.retainCount := rfl
      omega
    have hhr : t.header.retainCount = t.retainCount := rfl
    have h0' : ¬ t.retainCount = 0 := by omega
    simp only [releaseFuel, e1, h0, h0', if_false, hhr, e2, Option.some_bind]
    by_cases h1 : t.retainCount - 1 = 0
    · have hle : t.retainCount ≤ 1 := by omega
      rw [if_pos h1, released_of_le_one t hle, flatten_withRetainCount]
      rw [identifiers_flatten, List.nodup_cons] at hnd
      have hdep : depthForest t.children ≤ fuel := by
        rw [depth_eq] at hd; omega
      have := removeChildrenAndDestroyWith_flatten (releaseFuel fuel) fuel ih t.children X []
        { t.header with retainCount := t.retainCount - 1 } hdep ((retained_iff t).mp hret).2
        hnd.2 htX (by
          intro x hx
          refine ⟨hfresh x (by rw [identifiers_flatten]; exact List.mem_cons_of_mem _ hx), ?_, ?_⟩
          · intro e
            have e' : x = t.identifier := e
            rw [e'] at hx
            exact hnd.1 hx
          · simp)
      simpa only [List.append_nil, List.nil_append] using this
    · rw [if_neg h1, released_of_two_le t (by omega)]
      simp

/-- The same for `release`, whose fuel is taken from the size of the arena. -/
theorem release_releasesAtEnd (d : Nat) : ReleasesAtEnd release d := by
  intro X t _ hret hnd hfresh
  have h := releaseFuel_releasesAtEnd ((X ++ flatten t).length + 1) X t
    (by have := depth_le_length t; simp only [List.length_append]; omega) hret hnd hfresh
  exact h

end Subtree

end Poincare

namespace Poincare

open TreePool TreeByReference Subtree

/-! ## Handles: `clone` of a failure node, `setTo`, `buildGhostChildren` -/

/-- C17: `clone` of an allocation-failure node.  When the handle stands on an
allocation-failure node `x` (at any place of an arena in which no earlier record bears
its identifier), `clone()` returns a handle with the identifier of the receiver, lays
out no new record, and the retain count of `x` is one more; every other record is
untouched. -/
theorem clone_allocationFailure (A B : TreePool) (x : TreeNode)
    (hx : x.isAllocationFailure = true) (hA : x.identifier ∉ identifiers A) :
    clone (A ++ x :: B) (some x.identifier)
      = some (A ++ { x with retainCount := x.retainCount + 1 } :: B, some x.identifier) := by
  simp only [clone, node_append_cons A B x hA, Option.bind_eq_bind, Option.some_bind,
    getElem?_append_cons, hx, if_true, allocationFailureNodeIdentifier, retain,
    update_append_cons A B x _ hA]

theorem clone_allocationFailure_witness :
    clone [⟨1, 1, 0, false, false, 0⟩, ⟨2, 1, 0, true, false, 0⟩] (some 2)
      = some ([⟨1, 1, 0, false, false, 0⟩, ⟨2, 2, 0, true, false, 0⟩], some 2) :=
  clone_allocationFailure [⟨1, 1, 0, false, false, 0⟩] [] ⟨2, 1, 0, true, false, 0⟩ rfl
    (by decide)

/-- C14: `setTo` on an undefined handle.  Whatever the arena and the defined handle
`tr`, `h.setTo(tr)` on the undefined handle `h` hands `NoNodeIdentifier` to the arena
lookup (line 210 comes before the `isDefined()` of line 211); apart from that it ends
as expected, `h` holding the identifier of `tr` whose node is retained once more. -/
theorem setTo_undefined_resolves_noNodeIdentifier (pool : TreePool) (tr : Nat) :
    setTo pool none (some tr)
      = (retain pool tr).map (fun pool1 =>
          { pool := pool1, identifier := some tr, resolved := [none] }) := by
  simp only [setTo, reduceCtorEq, if_false, Option.isSome_none, Bool.false_eq_true]
  cases retain pool tr <;> rfl

/-- C13: `buildGhostChildren` on a node declaring two children, every ghost being
allocated.  Each ghost is laid out after the node and destroyed when the handle `ghost`
goes out of scope: the call returns the arena it started from, in which no ghost
follows the node although it still declares two children. -/
theorem buildGhostChildren_lays_out_no_ghost :
    buildGhostChildren (fun _ => true) [⟨1, 1, 2, false, false, 0⟩] 1
      = some [⟨1, 1, 2, false, false, 0⟩] := by
  decide

/-- C19: the ghost built by the first iteration of `buildGhostChildren` bears the
identifier `2`; after the call on a node declaring one child this identifier is not
live any more, whereas the same ghost attached through `addChildTreeAtIndex` is held by
its parent once its handle has been destroyed. -/
theorem buildGhostChildren_ghost_not_retained :
    ((buildGhostChildren (fun _ => true) [⟨1, 1, 1, false, false, 0⟩] 1).bind
        (fun pool => record pool 2) = none)
    ∧ ((addChildTreeAtIndex
          [⟨1, 1, 0, false, false, 0⟩, ⟨2, 1, 0, false, true, 0⟩] 1 2 0 0).bind
        (fun pool => (destructor pool 2).bind (fun pool => record pool 2))
        = some ⟨2, 1, 0, false, true, 0⟩) := by
  decide

end Poincare

namespace Poincare

open TreePool TreeByReference Subtree

/-! ## `clone` of an allocated tree -/

theorem relabelFrom_append (b : Nat) (l1 l2 : List TreeNode) :
    relabelFrom b (l1 ++ l2) = relabelFrom b l1 ++ relabelFrom (b + l1.length) l2 := by
  induction l1 generalizing b with
  | nil => simp [relabelFrom]
  | cons x l1 ih =>
    have e : b + 1 + l1.length = b + (l1.length + 1) := by omega
    simp only [List.cons_append, relabelFrom, List.append_eq, ih, List.length_cons, e]

@[simp] theorem length_relabelFrom (b : Nat) (l : List TreeNode) :
    (relabelFrom b l).length = l.length := by
  induction l generalizing b with
  | nil => rfl
  | cons x l ih => simp [relabelFrom, ih]

theorem lt_freshIdentifier (pool : TreePool) :
    ∀ x ∈ identifiers pool, x < freshIdentifier pool := by
  induction pool with
  | nil => intro x hx; simp at hx
  | cons a pool ih =>
    intro x hx
    simp only [identifiers_cons, List.mem_cons] at hx
    have e : freshIdentifier (a :: pool) = max a.identifier (freshIdentifier pool - 1) + 1 := by
      simp [freshIdentifier]
    rcases hx with rfl | hx
    · omega
    · have := ih x hx
      omega

theorem le_of_mem_relabelFrom (b : Nat) (l : List TreeNode) :
    ∀ x ∈ identifiers (relabelFrom b l), b ≤ x := by
  induction l generalizing b with
  | nil => intro x hx; simp [relabelFrom] at hx
  | cons a l ih =>
    intro x hx
    simp only [relabelFrom, identifiers_cons, List.mem_cons] at hx
    rcases hx with rfl | hx
    · exact le_refl _
    · have := ih (b + 1) x hx
      omega

theorem map_shape_relabelFrom (b : Nat) (l : List TreeNode) :
    (relabelFrom b l).map TreeNode.shape = l.map TreeNode.shape := by
  induction l generalizing b with
  | nil => rfl
  | cons a l ih => simp [relabelFrom, ih, TreeNode.shape]

theorem map_zero_relabelFrom (b : Nat) (l : List TreeNode) :
    (relabelFrom b l).map (fun r => { r with retainCount := 0 }) = relabelFrom b l := by
  induction l generalizing b with
  | nil => rfl
  | cons a l ih => simp [relabelFrom, ih]

namespace Subtree

mutual
theorem flatten_relabel (b : Nat) (t : Subtree) :
    flatten (relabel b t) = relabelFrom b (flatten t) := by
  match t with
  | node r cs =>
    have h1 := flattenForest_relabelForest (b + 1) cs
    have h2 := length_relabelForest (b + 1) cs
    simp only [relabel, flatten, relabelFrom, h1, h2]
theorem flattenForest_relabelForest (b : Nat) (ts : List Subtree) :
    flattenForest (relabelForest b ts) = relabelFrom b (flattenForest ts) := by
  match ts with
  | [] => rfl
  | t :: ts =>
    have h1 := flatten_relabel b t
    have h2 := flattenForest_relabelForest (b + (flatten t).length) ts
    simp only [relabelForest, flattenForest_cons, h1, h2, relabelFrom_append]
theorem length_relabelForest (b : Nat) (ts : List Subtree) :
    (relabelForest b ts).length = ts.length := by
  match ts with
  | [] => rfl
  | t :: ts =>
    have h := length_relabelForest (b + (flatten t).length) ts
    simp only [relabelForest, List.length_cons, h]
end

theorem relabel_header (b : Nat) (t : Subtree) :
    (relabel b t).header = { t.header with identifier := b, retainCount := 0 } := by
  cases t with
  | node r cs => simp [relabel, header, length_relabelForest]

end Subtree

end Poincare

namespace Poincare

open TreePool TreeByReference Subtree

namespace Subtree

theorem getElem?_flatten (A B : TreePool) (t : Subtree) :
    (A ++ flatten t ++ B)[A.length]? = some t.header := by
  have := getElem?_append_cons A (flattenForest t.children ++ B) t.header
  simpa [flatten_eq] using this

theorem take_deepSize_flatten (A B : TreePool) (t : Subtree) :
    ((A ++ flatten t ++ B).drop A.length).take
        (deepSize (A ++ flatten t ++ B) A.length t.children.length) = flatten t := by
  rw [deepSize_flatten, List.append_assoc, List.drop_left' rfl, List.take_left' rfl]

theorem deepCopy_flatten (A B : TreePool) (t : Subtree) :
    deepCopy (A ++ flatten t ++ B) A.length
      = some (A ++ flatten t ++ B
          ++ flatten (relabel (freshIdentifier (A ++ flatten t ++ B)) t),
        (A ++ flatten t ++ B).length) := by
  simp only [deepCopy, getElem?_flatten, Option.map_some', header_numberOfChildren,
    take_deepSize_flatten, flatten_relabel]

theorem deepResetReferenceCounter_relabel (X : TreePool) (b : Nat) (t : Subtree) :
    deepResetReferenceCounter (X ++ flatten (relabel b t)) X.length
      = some (X ++ flatten (relabel b t)) := by
  have e1 := getElem?_flatten X [] (relabel b t)
  have e2 := take_deepSize_flatten X [] (relabel b t)
  have e3 := deepSize_flatten X [] (relabel b t)
  simp only [List.append_nil] at e1 e2 e3
  simp only [deepResetReferenceCounter, e1, Option.map_some', header_numberOfChildren, e3]
  have e4 : (X ++ flatten (relabel b t)).drop (X.length + (flatten (relabel b t)).length)
      = [] := by
    rw [← List.length_append, List.drop_length]
  rw [List.take_left' rfl, List.drop_left' rfl, List.take_length, e4, flatten_relabel,
    map_zero_relabelFrom]
  simp

theorem map_shape_flatten_withRetainCount (c : Nat) (t : Subtree) :
    (flatten (t.withRetainCount c)).map TreeNode.shape = (flatten t).map TreeNode.shape := by
  rw [flatten_withRetainCount, flatten_eq t]
  simp [TreeNode.shape]

end Subtree

/-- C12: `clone`.  For a handle on the root of a sub-tree `t` that is not an allocation
failure (laid out anywhere in an arena in which no earlier record bears its
identifier), `clone()` returns a defined handle on a copy laid out at the end of the
arena: the arena before the copy is exactly the arena of before the call; the copy has,
record for record in depth-first order, the number of children, kind and content of
`t`; its identifiers are borne by no record of the original arena; its root is retained
once, by the returned handle.  On the undefined handle `clone()` returns the undefined
handle and the arena as it is. -/
theorem clone_copies (A B : TreePool) (t : Subtree)
    (ht : t.header.isAllocationFailure = false) (hA : t.identifier ∉ identifiers A) :
    (∃ copy : Subtree,
      clone (A ++ flatten t ++ B) (some t.identifier)
          = some (A ++ flatten t ++ B ++ flatten copy, some copy.identifier)
        ∧ (flatten copy).map TreeNode.shape = (flatten t).map TreeNode.shape
        ∧ (∀ x ∈ identifiers (flatten copy), x ∉ identifiers (A ++ flatten t ++ B))
        ∧ copy.retainCount = 1)
    ∧ clone (A ++ flatten t ++ B) none = some (A ++ flatten t ++ B, none) := by
  refine ⟨⟨(relabel (freshIdentifier (A ++ flatten t ++ B)) t).withRetainCount 1,
    ?_, ?_, ?_, ?_⟩, rfl⟩
  · have hfresh : (relabel (freshIdentifier (A ++ flatten t ++ B)) t).identifier
        ∉ identifiers (A ++ flatten t ++ B) := by
      intro h
      have h1 := lt_freshIdentifier _ _ h
      have h2 : (relabel (freshIdentifier (A ++ flatten t ++ B)) t).identifier
          = freshIdentifier (A ++ flatten t ++ B) := by
        simp [identifier, relabel_header]
      omega
    have e1 := getElem?_flatten (A ++ flatten t ++ B) []
      (relabel (freshIdentifier (A ++ flatten t ++ B)) t)
    have e2 := retain_flatten (A ++ flatten t ++ B) []
      (relabel (freshIdentifier (A ++ flatten t ++ B)) t) hfresh
    have e3 : (relabel (freshIdentifier (A ++ flatten t ++ B)) t).retainCount = 0 := by
      simp [retainCount, relabel_header]
    simp only [List.append_nil] at e1 e2
    simp only [clone, node_flatten A B t hA, Option.bind_eq_bind, Option.some_bind,
      getElem?_flatten, ht, Bool.false_eq_true, if_false, deepCopy_flatten,
      deepResetReferenceCounter_relabel, e1]
    have e4 : (relabel (freshIdentifier (A ++ flatten t ++ B)) t).header.identifier
        = (relabel (freshIdentifier (A ++ flatten t ++ B)) t).identifier := rfl
    rw [e4, e2, e3]
    simp
  · rw [map_shape_flatten_withRetainCount, flatten_relabel, map_shape_relabelFrom]
  · intro x hx h
    rw [identifiers_flatten_withRetainCount, flatten_relabel] at hx
    have h1 := lt_freshIdentifier _ _ h
    have h2 := le_of_mem_relabelFrom _ _ x hx
    omega
  · simp

theorem clone_copies_witness :
    (∃ copy : Subtree,
      clone ([] ++ flatten (node ⟨1, 1, 0, false, false, 7⟩ [node ⟨2, 1, 0, false, false, 8⟩ []])
            ++ []) (some 1)
          = some ([] ++ flatten (node ⟨1, 1, 0, false, false, 7⟩
              [node ⟨2, 1, 0, false, false, 8⟩ []]) ++ [] ++ flatten copy,
              some copy.identifier)
        ∧ (flatten copy).map TreeNode.shape
            = (flatten (node ⟨1, 1, 0, false, false, 7⟩
                [node ⟨2, 1, 0, false, false, 8⟩ []])).map TreeNode.shape
        ∧ (∀ x ∈ identifiers (flatten copy), x ∉ identifiers ([]
            ++ flatten (node ⟨1, 1, 0, false, false, 7⟩ [node ⟨2, 1, 0, false, false, 8⟩ []])
            ++ []))
        ∧ copy.retainCount = 1)
    ∧ clone ([] ++ flatten (node ⟨1, 1, 0, false, false, 7⟩
        [node ⟨2, 1, 0, false, false, 8⟩ []]) ++ []) none
      = some ([] ++ flatten (node ⟨1, 1, 0, false, false, 7⟩
        [node ⟨2, 1, 0, false, false, 8⟩ []]) ++ [], none) :=
  clone_copies [] [] (node ⟨1, 1, 0, false, false, 7⟩ [node ⟨2, 1, 0, false, false, 8⟩ []])
    rfl (by decide)

end Poincare
